import Mathlib

/-!
Verification of the spaGO computation-graph composition core.

The Go sources embedded here:
- `pkg/ml/ag/operators_composite.go` : `PositiveELU`, `Sum`, `Mean`
- `pkg/nlp/transformers/bert/bert.go` : BERT `Processor` task methods
- `pkg/nlp/transformers/bert/spanclassifier.go` : `SpanClassifierProcessor.Classify`
- the BERT discriminator file : `DiscriminatorProcessor.Discriminate`
- `pkg/nlp/stackedembeddings/stackedembeddings.go` : `Model.NewProc`,
  `Processor.Encode`, `Processor.Forward`

The graph is modelled as an append-only list of nodes; a `Node` handle is the
index of its node in the owning graph, matching the source's append-only
`Graph`.  Values are rational vectors (`List ℚ`); panics are modelled as
`Option.none`.
-/

/-- Operator tags of the computation-graph nodes used by the embedded code. -/
inductive Op where
  | leaf
  | constant
  | add
  | divScalar
  | concat
  | linear
  deriving DecidableEq

/-- One computation-graph node: operator tag, operand node indices, value. -/
structure GNode where
  op : Op
  operands : List Nat
  value : List ℚ
  deriving DecidableEq

/-- Default node returned when looking up an out-of-range index. -/
def defaultGNode : GNode := ⟨Op.leaf, [], []⟩

/-- The append-only computation graph of one evaluation session. -/
structure Graph where
  nodes : List GNode
  deriving DecidableEq

/-- Value carried by the node at index `i`. -/
def Graph.valueOf (g : Graph) (i : Nat) : List ℚ :=
  (g.nodes.getD i defaultGNode).value

/-- Scalar value of a (scalar) node: the first component of its value. -/
def Graph.scalarOf (g : Graph) (i : Nat) : ℚ :=
  (g.valueOf i).headD 0

/-- Append a node to the graph, returning the new graph and the node's index. -/
def Graph.push (g : Graph) (n : GNode) : Graph × Nat :=
  (⟨g.nodes ++ [n]⟩, g.nodes.length)

/-- `Graph.Constant` primitive: a leaf node holding an immutable scalar literal. -/
def Graph.Constant (g : Graph) (c : ℚ) : Graph × Nat :=
  g.push ⟨Op.constant, [], [c]⟩

/-- Modelled from the spec: the `add` primitive (elementwise sum of the two
operand values); the primitive's own code is not under `src/`, only its
composite callers are. -/
def Graph.Add (g : Graph) (a b : Nat) : Graph × Nat :=
  g.push ⟨Op.add, [a, b], List.zipWith (· + ·) (g.valueOf a) (g.valueOf b)⟩

/-- Modelled from the spec: the `divScalar` primitive (elementwise division of
the first operand's value by the scalar operand's value). -/
def Graph.DivScalar (g : Graph) (a s : Nat) : Graph × Nat :=
  g.push ⟨Op.divScalar, [a, s], (g.valueOf a).map (fun v => v / g.scalarOf s)⟩

/-- Modelled from the spec: the `concat` primitive (concatenation of the
operand vectors, per word position). -/
def Graph.Concat (g : Graph) (xs : List Nat) : Graph × Nat :=
  g.push ⟨Op.concat, xs, (xs.map g.valueOf).flatten⟩

/-- The accumulation loop shared by `Sum` and `Mean` in
`operators_composite.go`: `for i := 1; i < len(xs); i++ { sumVector = g.Add(sumVector, xs[i]) }`. -/
def Graph.sumLoop (g : Graph) (acc : Nat) : List Nat → Graph × Nat
  | [] => (g, acc)
  | x :: xs =>
    let p := g.Add acc x
    p.1.sumLoop p.2 xs

/-- `Graph.Sum` from `operators_composite.go`: starts from `xs[0]` (a panic on
an empty slice, modelled as `none`) and folds `Add` over the rest. -/
def Graph.Sum (g : Graph) : List Nat → Option (Graph × Nat)
  | [] => none
  | x :: xs => some (g.sumLoop x xs)

/-- `Graph.Mean` from `operators_composite.go`: the same accumulation loop as
`Sum` (starting from `xs[0]`, hence a panic on empty input), followed by
`DivScalar` with `Constant(float64(len(xs)))`. -/
def Graph.Mean (g : Graph) (xs : List Nat) : Option (Graph × Nat) :=
  match xs with
  | [] => none
  | x :: rest =>
    let p := g.sumLoop x rest
    let c := p.1.Constant ((xs.length : ℚ))
    some (c.1.DivScalar p.2 c.2)

/-- The spec's formulation of `Mean`: `mean(x1..xn) = divScalar(sum(x1..xn),
constant(n))`, to be compared with the source's `Graph.Mean`. -/
def Graph.meanSpec (g : Graph) (xs : List Nat) : Option (Graph × Nat) :=
  (g.Sum xs).map (fun p =>
    let c := p.1.Constant ((xs.length : ℚ))
    c.1.DivScalar p.2 c.2)

/-- Modelled from the spec: matrix-vector product of the linear layer, whose
own code (`pkg/ml/nn/linear`) is not under `src/`. -/
def mulVec (w : List (List ℚ)) (x : List ℚ) : List ℚ :=
  w.map (fun row => (List.zipWith (· * ·) row x).sum)

/-- Modelled from the spec: `linear.Processor.Forward` applies the shared
projection `W·x + b` to every input vector independently. -/
def linearForward (w : List (List ℚ)) (b : List ℚ) (xs : List (List ℚ)) : List (List ℚ) :=
  xs.map (fun x => List.zipWith (· + ·) (mulVec w x) b)

/-- Modelled from the spec: `nn.SeparateVec` splits a vector node into one
scalar node per component, in index order. -/
def SeparateVec (v : List ℚ) : List ℚ := v

/-- The per-output loop of `SpanClassifierProcessor.Classify`: each projected
vector is split and its component 0 appended to the start logits, component 1
to the end logits; accessing `split[0]`/`split[1]` on a too-short vector is a
panic, modelled as `none`. -/
def classifyLoop : List (List ℚ) → Option (List ℚ × List ℚ)
  | [] => some ([], [])
  | y :: ys =>
    match SeparateVec y with
    | a :: c :: _ => (classifyLoop ys).map (fun p => (a :: p.1, c :: p.2))
    | _ => none

/-- `SpanClassifierProcessor.Classify` from `spanclassifier.go`: forwards all
inputs through the single shared linear projection (built by
`NewSpanClassifier` as `linear.New(inputSize, 2)`, so `w` has two rows), then
splits each output. -/
def SpanClassifierProcessor.Classify (w : List (List ℚ)) (b : List ℚ)
    (xs : List (List ℚ)) : Option (List ℚ × List ℚ) :=
  classifyLoop (linearForward w b xs)

/-- Modelled from the spec: `f64utils.Sign`, a sign function returning `-1`,
`0` or `1`; its code is not under `src/`. -/
def Sign (a : ℚ) : ℚ :=
  if a < 0 then -1 else if 0 < a then 1 else 0

/-- Go's `math.Round`: nearest integer, ties rounded away from zero. -/
def mathRound (x : ℚ) : ℤ :=
  if 0 ≤ x then ⌊x + 1 / 2⌋ else -⌊-x + 1 / 2⌋

/-- `DiscriminatorProcessor.Discriminate` from the discriminator file,
parametrized by the scalar outputs of the stack's forward pass: each output
`v` is mapped to `int(math.Round((Sign(v) + 1) / 2))`. -/
def DiscriminatorProcessor.Discriminate (forwardOutputs : List ℚ) : List ℤ :=
  forwardOutputs.map (fun v => mathRound ((Sign v + 1) / 2))

/-- `bert.Processor.SequenceClassification` from `bert.go`, parametrized by
the pooler's forward pass and the classifier's predict (their code is not
under `src/`): `p.Classifier.Predict(p.Pooler.Forward(transformed[0]))[0]`.
Indexing `transformed[0]` on an empty slice and `[0]` on an empty prediction
are panics, modelled as `none`. -/
def Processor.SequenceClassification (poolerForward : List ℚ → List (List ℚ))
    (classifierPredict : List (List ℚ) → List (List ℚ))
    (transformed : List (List ℚ)) : Option (List ℚ) :=
  match transformed with
  | [] => none
  | t0 :: _ => (classifierPredict (poolerForward t0)).head?

/-- Modelled from the spec: the `elu` primitive, `x` for positive input and
`alpha * (exp x - 1)` otherwise; its code is not under `src/`. -/
noncomputable def elu (alpha x : ℝ) : ℝ :=
  if 0 < x then x else alpha * (Real.exp x - 1)

/-- Modelled from the spec: the `addScalar` primitive adds a scalar to the value. -/
def addScalar (x s : ℝ) : ℝ := x + s

/-- `Graph.PositiveELU` from `operators_composite.go`:
`AddScalar(ELU(x, Constant(1.0)), Constant(1.0))`, at value level. -/
noncomputable def PositiveELU (x : ℝ) : ℝ :=
  addScalar (elu 1 x) 1

/-- Modelled from the spec: `linear.Processor.Forward` at graph level, one
projection node appended per input node, shared weights `w`, `b`. -/
def linearProcForward (w : List (List ℚ)) (b : List ℚ) :
    Graph → List Nat → Graph × List Nat
  | g, [] => (g, [])
  | g, x :: xs =>
    let p := g.push ⟨Op.linear, [x], List.zipWith (· + ·) (mulVec w (g.valueOf x)) b⟩
    let q := linearProcForward w b p.1 xs
    (q.1, p.2 :: q.2)

/-- The intermediate-encoding loop of `stackedembeddings.Processor.Encode`:
a word with a single encoding passes it through unchanged (the `// optimization`
branch), otherwise a `Concat` node is appended. -/
def intermediateLoop : Graph → List (List Nat) → Graph × List Nat
  | g, [] => (g, [])
  | g, enc :: rest =>
    match enc with
    | [x] =>
      let q := intermediateLoop g rest
      (q.1, x :: q.2)
    | _ =>
      let p := g.Concat enc
      let q := intermediateLoop p.1 rest
      (q.1, p.2 :: q.2)

/-- The per-word regrouping of `stackedembeddings.Processor.Encode`:
`encodingsPerWord[wordIndex]` collects, in encoder order, each encoder's
output node at that word index. -/
def encodingsPerWord (encoderOutputs : List (List Nat)) (nWords : Nat) :
    List (List Nat) :=
  (List.range nWords).map (fun i => encoderOutputs.filterMap (fun out => out.get? i))

/-- `stackedembeddings.Processor.Encode` from `stackedembeddings.go`,
parametrized by each encoder's per-word output nodes: regroups the encodings
per word, builds the intermediate encodings (pass-through or `Concat`), and
applies the shared projection layer. -/
def Processor.Encode (w : List (List ℚ)) (b : List ℚ) (g : Graph)
    (encoderOutputs : List (List Nat)) (nWords : Nat) : Graph × List Nat :=
  let p := intermediateLoop g (encodingsPerWord encoderOutputs nWords)
  linearProcForward w b p.1 p.2

/-- `stackedembeddings.Processor.Forward`: the generic forward contract always
panics (`Forward() not implemented. Use Encode() instead.`), modelled as `none`. -/
def StackedProcessor.Forward (_xs : List Nat) : Option (List Nat) := none

/-- `bert.Processor.Forward`: the generic forward contract always panics
(`bert: method not implemented`), modelled as `none`. -/
def BertProcessor.Forward (_xs : List Nat) : Option (List Nat) := none

/-- The processor produced by a child model's `NewProc`: either it satisfies
the `WordsEncoderProcessor` capability interface (carrying its `Encode`
method) or it is some other processor; this models the Go type assertion
`encoder.NewProc(ctx).(WordsEncoderProcessor)`. -/
inductive ProcKind where
  | wordsEncoder (encode : List String → List Nat)
  | other

/-- The Go type assertion of `stackedembeddings.Model.NewProc`: `some` exactly
when the child processor satisfies `WordsEncoderProcessor`. -/
def asWordsEncoder : ProcKind → Option (List String → List Nat)
  | ProcKind.wordsEncoder e => some e
  | ProcKind.other => none

/-- The stacked-embeddings processor tree: the word-encoder children accepted
by `Model.NewProc`. -/
structure StackedProcessor where
  encoders : List (List String → List Nat)

/-- The loop of `stackedembeddings.Model.NewProc`: each child processor is
asserted to `WordsEncoderProcessor`; the first failure is `log.Fatal`
(modelled as `none`), so no partially-valid tree is ever produced. -/
def collectEncoders : List ProcKind → Option (List (List String → List Nat))
  | [] => some []
  | p :: ps =>
    match asWordsEncoder p with
    | none => none
    | some e => (collectEncoders ps).map (fun es => e :: es)

/-- `stackedembeddings.Model.NewProc` from `stackedembeddings.go`,
parametrized by the processors the child models produce. -/
def StackedModel.NewProc (children : List ProcKind) : Option StackedProcessor :=
  (collectEncoders children).map StackedProcessor.mk

/-- Pointwise behaviour of the discriminator's thresholding formula:
`round((sign(v) + 1) / 2)` is `1` for positive `v`, `0` for negative `v`,
and `1` at exactly zero. -/
theorem mathRound_sign (v : ℚ) :
    mathRound ((Sign v + 1) / 2) = if 0 < v then 1 else if v < 0 then 0 else 1 := by
  rcases lt_trichotomy v 0 with h | h | h
  · rw [Sign, if_pos h, if_neg (not_lt.mpr h.le), if_pos h]
    norm_num [mathRound]
  · subst h
    rw [Sign, if_neg (lt_irrefl 0), if_neg (lt_irrefl 0), if_neg (lt_irrefl 0),
      if_neg (lt_irrefl 0)]
    norm_num [mathRound]
  · rw [Sign, if_neg (not_lt.mpr h.le), if_pos h, if_pos h]
    norm_num [mathRound]

/-- C2: `Sum` applied to an empty operand list panics (modelled as `none`),
and `Mean` applied to an empty operand list panics; neither returns a zero,
default, or degenerate node. -/
theorem sum_mean_empty_fail :
    ∀ g : Graph, g.Sum [] = none ∧ g.Mean [] = none := by
  intro g
  exact ⟨rfl, rfl⟩

/-- C10: `Sum` applied to a single-element operand list returns that operand
node itself unchanged: the graph is returned as-is (no `Add` node appended). -/
theorem sum_singleton_identity :
    ∀ (g : Graph) (x : Nat), g.Sum [x] = some (g, x) := by
  intro g x
  rfl

/-- C6: the generic `Forward` contract of the stacked-embeddings `Processor`
and of the BERT `Processor` always panics (modelled as `none`) for every
input, never returning a value. -/
theorem forward_always_panics :
    ∀ xs : List Nat, StackedProcessor.Forward xs = none ∧ BertProcessor.Forward xs = none := by
  intro xs
  exact ⟨rfl, rfl⟩

/-- C9: for every non-empty sequence of transformed nodes,
`SequenceClassification` equals `Classifier.Predict(Pooler.Forward(transformed[0]))[0]`,
and its result does not depend on any element of the sequence other than the
first. -/
theorem sequenceClassification_pooled_first :
    ∀ (poolerForward : List ℚ → List (List ℚ))
      (classifierPredict : List (List ℚ) → List (List ℚ))
      (t0 : List ℚ) (rest rest' : List (List ℚ)),
      Processor.SequenceClassification poolerForward classifierPredict (t0 :: rest)
          = (classifierPredict (poolerForward t0)).head? ∧
      Processor.SequenceClassification poolerForward classifierPredict (t0 :: rest)
          = Processor.SequenceClassification poolerForward classifierPredict (t0 :: rest') := by
  intro poolerForward classifierPredict t0 rest rest'
  exact ⟨rfl, rfl⟩

/-- C8: for every real input `x`, the value of
`PositiveELU(x) = AddScalar(ELU(x, Constant(1.0)), Constant(1.0))` is strictly
greater than `0`, including at `x = 0` and at arbitrarily large negative `x`. -/
theorem positiveELU_pos : ∀ x : ℝ, 0 < PositiveELU x := by
  intro x
  unfold PositiveELU addScalar elu
  split
  · linarith
  · have h := Real.exp_pos x
    nlinarith

/-- C3: `DiscriminatorProcessor.Discriminate` returns one integer per element,
computed as `round((sign(v) + 1) / 2)` of the stack's scalar output `v`: a
strictly positive scalar maps to `1`, a strictly negative scalar maps to `0`,
and an exactly-zero scalar maps deterministically to the fixed value `1`. -/
theorem discriminate_thresholds :
    ∀ vs : List ℚ,
      DiscriminatorProcessor.Discriminate vs
          = vs.map (fun v => if 0 < v then 1 else if v < 0 then 0 else 1) ∧
      (DiscriminatorProcessor.Discriminate vs).length = vs.length := by
  intro vs
  refine ⟨?_, by simp [DiscriminatorProcessor.Discriminate]⟩
  unfold DiscriminatorProcessor.Discriminate
  induction vs with
  | nil => rfl
  | cons v vs ih => simp only [List.map_cons, mathRound_sign, ih]

/-- Appending a node preserves the value of every existing node. -/
theorem Graph.valueOf_push_lt (g : Graph) (n : GNode) (i : Nat) (h : i < g.nodes.length) :
    (g.push n).1.valueOf i = g.valueOf i := by
  simp [Graph.push, Graph.valueOf, List.getD_eq_getElem?_getD, List.getElem?_append_left h]

/-- The value of a freshly appended node is the value it was pushed with. -/
theorem Graph.valueOf_push_self (g : Graph) (n : GNode) :
    (g.push n).1.valueOf (g.push n).2 = n.value := by
  simp [Graph.push, Graph.valueOf, List.getD_eq_getElem?_getD]

/-- The accumulation loop of `Sum`/`Mean` returns an index of a node of the
returned graph, provided the accumulator is a node of the input graph. -/
theorem Graph.sumLoop_idx_lt (g : Graph) (a : Nat) (xs : List Nat)
    (h : a < g.nodes.length) :
    (g.sumLoop a xs).2 < (g.sumLoop a xs).1.nodes.length := by
  induction xs generalizing g a with
  | nil => simpa [Graph.sumLoop] using h
  | cons x xs ih =>
    simp only [Graph.sumLoop]
    exact ih _ _ (by simp [Graph.Add, Graph.push])

/-- Value of the node built by `DivScalar(sumNode, Constant(c))`: the sum
node's value divided elementwise by `c`. -/
theorem divScalar_constant_value (gs : Graph) (s : Nat) (c : ℚ) (h : s < gs.nodes.length) :
    ((gs.Constant c).1.DivScalar s (gs.Constant c).2).1.valueOf
        ((gs.Constant c).1.DivScalar s (gs.Constant c).2).2
      = (gs.valueOf s).map (fun v => v / c) := by
  have hc : (gs.Constant c).1.valueOf (gs.Constant c).2 = [c] := by
    rw [Graph.Constant, Graph.valueOf_push_self]
  have hv : (gs.Constant c).1.valueOf s = gs.valueOf s := by
    rw [Graph.Constant, Graph.valueOf_push_lt _ _ _ h]
  rw [Graph.DivScalar, Graph.valueOf_push_self, Graph.scalarOf, hc, hv]
  rfl

/-- C1: for every non-empty list of operand nodes `xs` of length `n`,
`Mean(xs)` builds the same value as `DivScalar(Sum(xs...), Constant(n))` (the
two graph transformers agree), and the mean node's value equals the sum
node's value divided elementwise by the literal operand count `n`. -/
theorem mean_refines_divScalar_sum :
    (∀ (g : Graph) (xs : List Nat), g.Mean xs = g.meanSpec xs) ∧
    (∀ (g : Graph) (xs : List Nat) (gs g' : Graph) (s i : Nat),
      (∀ x ∈ xs, x < g.nodes.length) →
      g.Sum xs = some (gs, s) → g.Mean xs = some (g', i) →
      g'.valueOf i = (gs.valueOf s).map (fun v => v / (xs.length : ℚ))) := by
  constructor
  · intro g xs
    cases xs with
    | nil => rfl
    | cons x rest => rfl
  · intro g xs gs g' s i hvalid hsum hmean
    cases xs with
    | nil => cases hsum
    | cons x rest =>
      simp only [Graph.Sum, Option.some.injEq] at hsum
      simp only [Graph.Mean, Option.some.injEq] at hmean
      rw [Prod.ext_iff] at hsum hmean
      obtain ⟨hgs, hs⟩ := hsum
      obtain ⟨hg', hi⟩ := hmean
      subst hgs hs hg' hi
      exact divScalar_constant_value _ _ _
        (Graph.sumLoop_idx_lt g x rest (hvalid x (List.mem_cons_self x rest)))

/-- A two-node example graph used to witness the `Mean` refinement. -/
def gEx : Graph := ⟨[⟨Op.constant, [], [1]⟩, ⟨Op.constant, [], [2]⟩]⟩

/-- The graph and sum node produced by `Sum` on the example graph. -/
def gExSum : Graph := (gEx.sumLoop 0 [1]).1

/-- The graph produced by `Mean` on the example graph. -/
def gExMean : Graph := ((gEx.Mean [0, 1]).getD (gEx, 0)).1

/-- Concrete witness for the `Mean` refinement theorem. -/
theorem mean_refines_divScalar_sum_witness :
    Graph.valueOf gExMean 4
      = (Graph.valueOf gExSum 2).map (fun v => v / (([0, 1] : List Nat).length : ℚ)) :=
  mean_refines_divScalar_sum.2 gEx [0, 1] gExSum gExMean 2 4
    (by decide) rfl rfl

/-- On projected vectors that all have two components, the classify loop
succeeds and returns exactly the index-0 components and the index-1
components, in order. -/
theorem classifyLoop_wide (ys : List (List ℚ)) (h : ∀ y ∈ ys, y.length = 2) :
    classifyLoop ys
      = some (ys.map (fun y => (SeparateVec y).getD 0 0),
              ys.map (fun y => (SeparateVec y).getD 1 0)) := by
  induction ys with
  | nil => rfl
  | cons y ys ih =>
    have hy : y.length = 2 := h y (List.mem_cons_self y ys)
    have hrest : ∀ z ∈ ys, z.length = 2 := fun z hz => h z (List.mem_cons_of_mem y hz)
    cases y with
    | nil => simp at hy
    | cons a y' =>
      cases y' with
      | nil => simp at hy
      | cons c t =>
        simp [classifyLoop, SeparateVec, ih hrest]

/-- C4: for every list of `n` input vectors, `SpanClassifierProcessor.Classify`
returns two sequences (start logits, end logits) each of length `n`, and for
each position the pair equals splitting that position's 2-wide output of the
single shared linear projection in index order: index 0 becomes the start
logit and index 1 the end logit. -/
theorem classify_splits_shared_projection :
    ∀ (w : List (List ℚ)) (b : List ℚ) (xs : List (List ℚ)),
      w.length = 2 → b.length = 2 →
      SpanClassifierProcessor.Classify w b xs
          = some ((linearForward w b xs).map (fun y => (SeparateVec y).getD 0 0),
                  (linearForward w b xs).map (fun y => (SeparateVec y).getD 1 0)) ∧
      ((linearForward w b xs).map (fun y => (SeparateVec y).getD 0 0)).length = xs.length ∧
      ((linearForward w b xs).map (fun y => (SeparateVec y).getD 1 0)).length = xs.length := by
  intro w b xs hw hb
  have hwide : ∀ y ∈ linearForward w b xs, y.length = 2 := by
    intro y hy
    simp only [linearForward, List.mem_map] at hy
    obtain ⟨x, hx, rfl⟩ := hy
    simp [mulVec, hw, hb]
  refine ⟨classifyLoop_wide _ hwide, ?_, ?_⟩ <;> simp [linearForward]

/-- Example projection weights of the span classifier (two rows). -/
def wEx : List (List ℚ) := [[1], [2]]

/-- Example projection bias of the span classifier (two components). -/
def bEx : List ℚ := [0, 0]

/-- Example input vectors for the span classifier. -/
def xsEx : List (List ℚ) := [[1]]

/-- Concrete witness for the span-classifier splitting theorem. -/
theorem classify_splits_shared_projection_witness :
    SpanClassifierProcessor.Classify wEx bEx xsEx
        = some ((linearForward wEx bEx xsEx).map (fun y => (SeparateVec y).getD 0 0),
                (linearForward wEx bEx xsEx).map (fun y => (SeparateVec y).getD 1 0)) ∧
    ((linearForward wEx bEx xsEx).map (fun y => (SeparateVec y).getD 0 0)).length
        = xsEx.length ∧
    ((linearForward wEx bEx xsEx).map (fun y => (SeparateVec y).getD 1 0)).length
        = xsEx.length :=
  classify_splits_shared_projection wEx bEx xsEx (by decide) (by decide)

/-- Looking up every index of a list in order yields the list of its elements
as singletons. -/
theorem range_map_lookup_toList {α : Type} (l : List α) :
    (List.range l.length).map (fun i => (l.get? i).toList) = l.map (fun x => [x]) := by
  induction l with
  | nil => rfl
  | cons a l ih =>
    rw [List.length_cons, List.range_succ_eq_map, List.map_cons, List.map_map]
    simp only [Function.comp_def, List.get?_cons_succ, List.get?_cons_zero, Option.toList_some]
    rw [ih]
    rfl

/-- With a single encoder whose output has one node per word, the per-word
regrouping yields a singleton encoding list for every word, in word order. -/
theorem encodingsPerWord_single (out : List Nat) :
    encodingsPerWord [out] out.length = out.map (fun x => [x]) := by
  unfold encodingsPerWord
  have h : ∀ i, ([out] : List (List Nat)).filterMap (fun o => o.get? i)
      = (out.get? i).toList := by
    intro i
    cases hoi : out[i]? <;>
      simp [List.filterMap_cons, List.get?_eq_getElem?, hoi]
  simp only [h]
  exact range_map_lookup_toList out

/-- On singleton encodings, the intermediate-encoding loop is a pure
pass-through: the graph is unchanged (no `Concat` node appended) and each
word's intermediate encoding is the encoder's output node itself. -/
theorem intermediateLoop_singletons (g : Graph) (out : List Nat) :
    intermediateLoop g (out.map (fun x => [x])) = (g, out) := by
  induction out generalizing g with
  | nil => rfl
  | cons x out ih => simp [intermediateLoop, ih]

/-- C5: when the stacked-embeddings processor is configured with exactly one
word encoder whose output has one node per word, `Encode` performs no
concatenation — the intermediate phase returns the input graph unchanged and
each word's intermediate encoding is the encoder's output node itself — and
the result equals applying the shared projection layer directly to that
single encoder's per-word outputs. -/
theorem encode_single_encoder_passthrough :
    ∀ (w : List (List ℚ)) (b : List ℚ) (g : Graph) (out : List Nat) (nWords : Nat),
      out.length = nWords →
      intermediateLoop g (encodingsPerWord [out] nWords) = (g, out) ∧
      Processor.Encode w b g [out] nWords = linearProcForward w b g out := by
  intro w b g out nWords h
  subst h
  have h1 : intermediateLoop g (encodingsPerWord [out] out.length) = (g, out) := by
    rw [encodingsPerWord_single]
    exact intermediateLoop_singletons g out
  refine ⟨h1, ?_⟩
  unfold Processor.Encode
  rw [h1]

/-- Example encoder outputs (one node per word of a two-word input). -/
def outEx : List Nat := [0, 1]

/-- Concrete witness for the single-encoder pass-through theorem. -/
theorem encode_single_encoder_passthrough_witness :
    intermediateLoop gEx (encodingsPerWord [outEx] 2) = (gEx, outEx) ∧
    Processor.Encode wEx bEx gEx [outEx] 2 = linearProcForward wEx bEx gEx outEx :=
  encode_single_encoder_passthrough wEx bEx gEx outEx 2 (by decide)

/-- The constructor loop succeeds exactly when every child processor satisfies
the words-encoder capability. -/
theorem collectEncoders_isSome (children : List ProcKind) :
    (collectEncoders children).isSome ↔ ∀ c ∈ children, (asWordsEncoder c).isSome := by
  induction children with
  | nil => simp [collectEncoders]
  | cons p ps ih =>
    cases p with
    | wordsEncoder e => simp [collectEncoders, asWordsEncoder, ih]
    | other => simp [collectEncoders, asWordsEncoder]

/-- When the constructor loop succeeds it produces one encoder per child, so
the tree is never partial. -/
theorem collectEncoders_length (children : List ProcKind)
    (es : List (List String → List Nat)) (h : collectEncoders children = some es) :
    es.length = children.length := by
  induction children generalizing es with
  | nil =>
    simp only [collectEncoders, Option.some.injEq] at h
    subst h
    rfl
  | cons p ps ih =>
    cases p with
    | wordsEncoder e =>
      simp only [collectEncoders, asWordsEncoder] at h
      cases hc : collectEncoders ps with
      | none => rw [hc] at h; cases h
      | some es' =>
        rw [hc] at h
        simp only [Option.map_some'] at h
        injection h with h
        subst h
        simp [ih es' hc]
    | other => simp [collectEncoders, asWordsEncoder] at h

/-- C7: `stackedembeddings.Model.NewProc` fails fast (modelled as `none`) as
soon as any child model's produced processor does not satisfy the
`WordsEncoderProcessor` capability interface: it succeeds exactly when every
child satisfies the capability, and when it succeeds the processor tree holds
one encoder per child, never a partially-valid tree. -/
theorem newProc_fails_fast :
    (∀ children : List ProcKind,
      (StackedModel.NewProc children).isSome ↔ ∀ c ∈ children, (asWordsEncoder c).isSome) ∧
    (∀ (children : List ProcKind) (proc : StackedProcessor),
      StackedModel.NewProc children = some proc → proc.encoders.length = children.length) := by
  constructor
  · intro children
    rw [StackedModel.NewProc, Option.isSome_map']
    exact collectEncoders_isSome children
  · intro children proc h
    rw [StackedModel.NewProc] at h
    cases hc : collectEncoders children with
    | none => rw [hc] at h; cases h
    | some es =>
      rw [hc] at h
      simp only [Option.map_some'] at h
      injection h with h
      subst h
      exact collectEncoders_length children es hc

/-- Example word-encoder function for the fail-fast witness. -/
def encEx : List String → List Nat := fun _ => []

/-- Concrete witness for the fail-fast constructor theorem. -/
theorem newProc_fails_fast_witness :
    (StackedProcessor.mk [encEx]).encoders.length
        = ([ProcKind.wordsEncoder encEx] : List ProcKind).length :=
  newProc_fails_fast.2 [ProcKind.wordsEncoder encEx] (StackedProcessor.mk [encEx]) rfl
